import Mathlib

/-!
# Verification of the `kms` package (acudac-com/public-go)

Shallow embedding of `src/kms/kms.go` together with the parts of its
collaborators that the package relies on:

* the blob store interface (`src/storage/storage.go`): an atomic
  create-only write (`WriteIfMissing`) and a `Read` returning presence,
  modelled as an association list from path to bytes;
* `timex.Now`: the current wall-clock time, modelled as an explicit
  `now : Nat` parameter (nanoseconds since Go's zero time, January 1 of
  year 1, 00:00:00 UTC, which is the reference point of `time.Time` and of
  `Time.Truncate`);
* the Go `time` package's `Truncate`, `Format` and `Parse` for the default
  key-time layout `"20060102_1504"`, modelled over the proleptic Gregorian
  calendar from year 1 onward (13 fixed-width ASCII characters
  `YYYYMMDD_HHMM`; Go's year field additionally accepts a leading minus
  sign and years before 1, i.e. times before the model's epoch, which are
  outside this embedding's time domain and are treated as non-parsing);
* `crypto/cipher`'s AES-256-GCM AEAD and `crypto/hmac`+`crypto/sha512`,
  modelled as executable functions with the interface contract the Go
  primitives provide: a 12-byte nonce, a 16-byte appended tag,
  `Open (Seal pt) = pt` for matching key/nonce and tag-checked rejection
  otherwise, and a 64-byte MAC for any key;
* `crypto/rand.Read`, modelled as an explicit `Option (Nat → Nat)` oracle
  argument (`none` = the platform randomness source fails, in which case
  the Go code panics).

Bytes are `List Nat` (byte values; arithmetic is reduced mod 256 where the
modelled primitives produce bytes).  Go strings (key ids, storage paths)
are modelled as their byte/ASCII-code lists.  Each stateful operation
returns its result, the post-state (store and cache) and the list of store
operations it performed, so that frame properties ("never writes the
store", "does not consult the store") are directly statable.

The `kms.Kms` instance is modelled with the defaults installed by
`NewKms` (rotation 30 days, max age 90 days, key time format
`"20060102_1504"`, keys folder `".keys"`).
-/

/-- Byte strings: lists of byte values. -/
abbrev Bytes := List Nat

/-! ## Association-list maps (model of the blob store contents and of the
`sync.Map` key cache: a finite map from a string key to bytes) -/

/-- Lookup in an association list (model of map access / `sync.Map.Load` /
store read at a path). -/
def mget : List (List Nat × Bytes) → List Nat → Option Bytes
  | [], _ => none
  | (k, v) :: t, q => if k = q then some v else mget t q

/-- Insertion into an association list (model of `sync.Map.Store` and of a
store write). -/
def mput (m : List (List Nat × Bytes)) (k : List Nat) (v : Bytes) :
    List (List Nat × Bytes) :=
  (k, v) :: m

theorem mget_mput (m : List (List Nat × Bytes)) (k q : List Nat) (v : Bytes) :
    mget (mput m k v) q = if k = q then some v else mget m q := rfl

/-! ## Time and the Gregorian calendar

Go's `time.Time` counts from January 1, year 1, 00:00:00 UTC; `Truncate`
rounds down to a multiple of the duration since that zero time.  Times are
modelled as `Nat` nanoseconds since that zero time. -/

/-- Nanoseconds per minute. -/
def nsPerMinute : Nat := 60000000000

/-- Nanoseconds per day. -/
def nsPerDay : Nat := 86400000000000

/-- Default `RotationFreq` from `NewKms`: 30 days, in nanoseconds. -/
def rotationFreq : Nat := 2592000000000000

/-- Default `MaxAge` from `NewKms`: 90 days, in nanoseconds. -/
def maxAge : Nat := 7776000000000000

/-- `len("20060102_1504")`, the `keyLength` stored by `NewKms`. -/
def keyLength : Nat := 13

/-- `sha512.Size`: the HMAC-SHA512 output length. -/
def macSize : Nat := 64

/-- `aead.NonceSize()` for AES-GCM. -/
def nonceSize : Nat := 12

/-- AES-GCM appends a 16-byte authentication tag. -/
def tagSize : Nat := 16

/-- `time.Time.Truncate`: round down to a multiple of the duration since
the zero time. -/
def truncTime (t d : Nat) : Nat := t - t % d

/-- Gregorian leap-year rule (Go `time.isLeap`). -/
def isLeap (y : Nat) : Bool := y % 4 = 0 && (y % 100 ≠ 0 || y % 400 = 0)

/-- Days in a month of a given year (Go `time.daysIn`). -/
def daysInMonth (y m : Nat) : Nat :=
  match m with
  | 2 => if isLeap y then 29 else 28
  | 4 => 30
  | 6 => 30
  | 9 => 30
  | 11 => 30
  | _ => 31

/-- A calendar date. -/
structure Date where
  year : Nat
  month : Nat
  day : Nat
deriving DecidableEq, Repr

/-- A structurally valid calendar date (month 1..12, day within the
month, year from 1 on). -/
def ValidDate (d : Date) : Prop :=
  1 ≤ d.year ∧ 1 ≤ d.month ∧ d.month ≤ 12 ∧ 1 ≤ d.day ∧
    d.day ≤ daysInMonth d.year d.month

/-- The calendar successor of a date. -/
def nextDay (d : Date) : Date :=
  if d.day < daysInMonth d.year d.month then ⟨d.year, d.month, d.day + 1⟩
  else if d.month < 12 then ⟨d.year, d.month + 1, 1⟩
  else ⟨d.year + 1, 1, 1⟩

/-- The date `n` days after January 1 of year 1 (the civil date Go's
`time.Time.Date` reports for day number `n`). -/
def dateOfDays : Nat → Date
  | 0 => ⟨1, 1, 1⟩
  | n + 1 => nextDay (dateOfDays n)

/-- Days in a year. -/
def daysInYear (y : Nat) : Nat := if isLeap y then 366 else 365

/-- Total days in years 1..n. -/
def daysUpto : Nat → Nat
  | 0 => 0
  | n + 1 => daysUpto n + daysInYear (n + 1)

/-- Total days in months 1..m of year `y`. -/
def monthsDays (y : Nat) : Nat → Nat
  | 0 => 0
  | m + 1 => monthsDays y m + daysInMonth y (m + 1)

/-- Day number (days since January 1 of year 1) of a civil date; the
inverse of `dateOfDays` on valid dates. -/
def civilToDays (d : Date) : Nat :=
  daysUpto (d.year - 1) + monthsDays d.year (d.month - 1) + (d.day - 1)

theorem daysInMonth_pos (y m : Nat) : 1 ≤ daysInMonth y m := by
  unfold daysInMonth
  split <;> first | omega | (split <;> omega)

theorem daysInMonth_le (y m : Nat) : daysInMonth y m ≤ 31 := by
  unfold daysInMonth
  split <;> first | omega | (split <;> omega)

theorem monthsDays_twelve (y : Nat) : monthsDays y 12 = daysInYear y := by
  cases h : isLeap y <;>
    simp [monthsDays, daysInMonth, daysInYear, h]

theorem validDate_nextDay {d : Date} (h : ValidDate d) :
    ValidDate (nextDay d) := by
  obtain ⟨hy, hm1, hm2, hd1, hd2⟩ := h
  have hp1 := daysInMonth_pos d.year (d.month + 1)
  have hp2 := daysInMonth_pos (d.year + 1) 1
  unfold nextDay ValidDate
  split
  · dsimp only
    omega
  · split <;> (dsimp only; omega)

theorem validDate_dateOfDays (n : Nat) : ValidDate (dateOfDays n) := by
  induction n with
  | zero =>
    unfold ValidDate
    refine ⟨by decide, by decide, by decide, by decide, by decide⟩
  | succ n ih => exact validDate_nextDay ih

theorem civilToDays_nextDay {d : Date} (h : ValidDate d) :
    civilToDays (nextDay d) = civilToDays d + 1 := by
  obtain ⟨hy, hm1, hm2, hd1, hd2⟩ := h
  have hmo : d.month - 1 + 1 = d.month := by omega
  have hyr : d.year - 1 + 1 = d.year := by omega
  have hstepm : monthsDays d.year (d.month - 1 + 1)
      = monthsDays d.year (d.month - 1) + daysInMonth d.year (d.month - 1 + 1) := rfl
  rw [hmo] at hstepm
  have hstepy : daysUpto (d.year - 1 + 1)
      = daysUpto (d.year - 1) + daysInYear (d.year - 1 + 1) := rfl
  rw [hyr] at hstepy
  have h12 := monthsDays_twelve d.year
  have hstep12 : monthsDays d.year 12
      = monthsDays d.year 11 + daysInMonth d.year 12 := rfl
  unfold nextDay
  split
  · unfold civilToDays
    dsimp only
    omega
  · rename_i hnd
    split
    · rename_i hnm
      unfold civilToDays
      dsimp only
      simp only [Nat.add_sub_cancel]
      omega
    · rename_i hnm
      have hm12 : d.month = 12 := by omega
      rw [hm12] at hnd hstepm hd2
      unfold civilToDays
      dsimp only
      rw [hm12]
      have h1 : d.year + 1 - 1 = d.year := rfl
      have h2 : monthsDays (d.year + 1) (1 - 1) = 0 := rfl
      have h3 : monthsDays d.year (12 - 1) = monthsDays d.year 11 := rfl
      rw [h1, h2, h3]
      omega

theorem civilToDays_dateOfDays (n : Nat) :
    civilToDays (dateOfDays n) = n := by
  induction n with
  | zero => rfl
  | succ n ih =>
    have hv := validDate_dateOfDays n
    show civilToDays (nextDay (dateOfDays n)) = n + 1
    rw [civilToDays_nextDay hv, ih]

/-! ## Key id formatting and parsing (Go `time.Format` / `time.Parse` with
the default layout `"20060102_1504"`) -/

/-- Powers of ten. -/
def pow10 : Nat → Nat
  | 0 => 1
  | n + 1 => 10 * pow10 n

theorem pow10_pos (w : Nat) : 0 < pow10 w := by
  induction w with
  | zero => decide
  | succ w ih => simp only [pow10]; omega

/-- Fixed-width zero-padded decimal rendering as ASCII codes, most
significant digit first (Go's `appendInt(b, v, width)` for `v < 10^width`;
the key time layout uses widths 4, 2, 2, 2, 2). -/
def padDec : Nat → Nat → List Nat
  | 0, _ => []
  | w + 1, n => (48 + n / pow10 w) :: padDec w (n % pow10 w)

/-- The 13 ASCII codes `YYYYMMDD_HHMM` of a time rendered with the default
key time format (95 is the underscore). -/
def keyTimeBytes (t : Nat) : List Nat :=
  let d := dateOfDays (t / nsPerDay)
  let m := t / nsPerMinute % 1440
  padDec 4 d.year ++ padDec 2 d.month ++ padDec 2 d.day ++ [95] ++
    padDec 2 (m / 60) ++ padDec 2 (m % 60)

/-- `Kms.currentKeyId`: format the time truncated to the rotation
period. -/
def currentKeyId (now : Nat) : List Nat :=
  keyTimeBytes (truncTime now rotationFreq)

/-- Decode a list of ASCII codes as a zero-padded decimal number;
`none` if any code is not a digit. -/
def decodeDecAux : List Nat → Nat → Option Nat
  | [], acc => some acc
  | c :: t, acc =>
    if 48 ≤ c ∧ c ≤ 57 then decodeDecAux t (acc * 10 + (c - 48)) else none

def decodeDec (l : List Nat) : Option Nat := decodeDecAux l 0

/-- The nanosecond time of a civil date plus hour and minute. -/
def timeOfParts (y mo d h mi : Nat) : Nat :=
  civilToDays ⟨y, mo, d⟩ * nsPerDay + (h * 60 + mi) * nsPerMinute

/-- Go `time.Parse` with layout `"20060102_1504"`, for ids denoting times
from year 1 onward: exactly 13 characters `YYYYMMDD_HHMM`, with Go's range
checks (month 1..12, day 1..daysIn(month, year), hour ≤ 23, minute ≤ 59);
any leftover or missing characters are a parse error ("extra text" /
truncated input in Go).  Go additionally accepts a leading minus sign or a
year-0 field, denoting times before the zero time, which are outside this
model's time domain. -/
def parseKeyTime (id : List Nat) : Option Nat :=
  if id.length = 13 then
    let r1 := id.drop 4
    let r2 := r1.drop 2
    let r3 := r2.drop 2
    let r4 := r3.drop 1
    if r3.take 1 = [95] then
      match decodeDec (id.take 4), decodeDec (r1.take 2), decodeDec (r2.take 2),
          decodeDec (r4.take 2), decodeDec (r4.drop 2) with
      | some y, some mo, some d, some h, some mi =>
        if 1 ≤ y ∧ 1 ≤ mo ∧ mo ≤ 12 ∧ 1 ≤ d ∧ d ≤ daysInMonth y mo ∧
            h ≤ 23 ∧ mi ≤ 59
        then some (timeOfParts y mo d h mi) else none
      | _, _, _, _, _ => none
    else none
  else none

/-- Lexicographic (byte-wise) order on ASCII code lists, matching Go
string comparison for strings of these bytes. -/
def lexLe : List Nat → List Nat → Bool
  | [], _ => true
  | _ :: _, [] => false
  | a :: as, b :: bs => if a < b then true else if a = b then lexLe as bs else false

/-- Strict lexicographic order. -/
def lexLt : List Nat → List Nat → Bool
  | [], [] => false
  | [], _ :: _ => true
  | _ :: _, [] => false
  | a :: as, b :: bs => if a < b then true else if a = b then lexLt as bs else false

theorem lexLe_refl (l : List Nat) : lexLe l l = true := by
  induction l with
  | nil => rfl
  | cons a t ih => simp [lexLe, ih]

theorem lexLt_lexLe {a b : List Nat} (h : lexLt a b = true) : lexLe a b = true := by
  induction a generalizing b with
  | nil => cases b <;> rfl
  | cons x xs ih =>
    cases b with
    | nil => simp [lexLt] at h
    | cons y ys =>
      simp only [lexLt] at h
      simp only [lexLe]
      split at h
      · simp [*]
      · split at h
        · simp only [if_neg, *]
          split
          · rfl
          · simp [ih h]
        · exact absurd h (by simp)

theorem lexLe_append_of_lexLt {a b : List Nat} (r1 r2 : List Nat)
    (hlen : a.length = b.length) (h : lexLt a b = true) :
    lexLe (a ++ r1) (b ++ r2) = true := by
  induction a generalizing b with
  | nil =>
    cases b with
    | nil => simp [lexLt] at h
    | cons y ys => simp at hlen
  | cons x xs ih =>
    cases b with
    | nil => simp [lexLt] at h
    | cons y ys =>
      simp only [List.length_cons] at hlen
      simp only [lexLt] at h
      simp only [List.cons_append, lexLe]
      split at h
      · simp [*]
      · split at h
        · subst_vars
          rw [if_neg (lt_irrefl y), if_pos rfl]
          exact ih (by omega) h
        · exact absurd h (by simp)

theorem lexLe_append_left (a : List Nat) {r1 r2 : List Nat}
    (h : lexLe r1 r2 = true) : lexLe (a ++ r1) (a ++ r2) = true := by
  induction a with
  | nil => simpa using h
  | cons x xs ih => simp [lexLe, ih]

theorem padDec_length (w n : Nat) : (padDec w n).length = w := by
  induction w generalizing n with
  | zero => rfl
  | succ w ih => simp [padDec, ih]

theorem lexLt_padDec {w n1 n2 : Nat} (h : n1 < n2) (h2 : n2 < pow10 w) :
    lexLt (padDec w n1) (padDec w n2) = true := by
  induction w generalizing n1 n2 with
  | zero => simp only [pow10] at h2; omega
  | succ w ih =>
    have hpow : 0 < pow10 w := pow10_pos w
    have hd1 : n1 / pow10 w ≤ n2 / pow10 w := Nat.div_le_div_right (Nat.le_of_lt h)
    rcases Nat.lt_or_ge (n1 / pow10 w) (n2 / pow10 w) with hlt | hge
    · simp [padDec, lexLt, hlt]
    · have heq : n1 / pow10 w = n2 / pow10 w := Nat.le_antisymm hd1 hge
      have e1 := Nat.div_add_mod n1 (pow10 w)
      have e2 := Nat.div_add_mod n2 (pow10 w)
      rw [heq] at e1
      have hmod : n1 % pow10 w < n2 % pow10 w := by omega
      have hmod2 : n2 % pow10 w < pow10 w := Nat.mod_lt _ hpow
      simp [padDec, lexLt, heq, ih hmod hmod2]

theorem decodeDecAux_padDec (w : Nat) :
    ∀ n acc, n < pow10 w →
      decodeDecAux (padDec w n) acc = some (acc * pow10 w + n) := by
  induction w with
  | zero =>
    intro n acc h
    simp only [pow10] at h
    interval_cases n
    simp [padDec, decodeDecAux, pow10]
  | succ w ih =>
    intro n acc h
    have hpow := pow10_pos w
    have hsucc : pow10 (w + 1) = 10 * pow10 w := rfl
    rw [hsucc] at h
    have hdig : n / pow10 w ≤ 9 :=
      Nat.lt_succ_iff.mp ((Nat.div_lt_iff_lt_mul hpow).mpr (by omega))
    have key : ∀ q r, pow10 w * q + r = n → r < pow10 w → q ≤ 9 →
        decodeDecAux ((48 + q) :: padDec w r) acc
          = some (acc * (10 * pow10 w) + n) := by
      intro q r hqr hrlt hq9
      simp only [decodeDecAux]
      rw [if_pos (show 48 ≤ 48 + q ∧ 48 + q ≤ 57 from ⟨by omega, by omega⟩)]
      have h48 : 48 + q - 48 = q := by omega
      rw [h48, ih r _ hrlt]
      congr 1
      have hring : (acc * 10 + q) * pow10 w
          = acc * (10 * pow10 w) + pow10 w * q := by ring
      omega
    simp only [padDec]
    rw [hsucc]
    exact key _ _ (Nat.div_add_mod n _) (Nat.mod_lt _ hpow) hdig

theorem decodeDec_padDec {w n : Nat} (h : n < pow10 w) :
    decodeDec (padDec w n) = some n := by
  unfold decodeDec
  rw [decodeDecAux_padDec w n 0 h]
  simp

theorem keyTimeBytes_length (t : Nat) : (keyTimeBytes t).length = 13 := by
  simp [keyTimeBytes, padDec_length]

theorem take_len_append {α : Type} (l r : List α) (n : Nat)
    (h : l.length = n) : (l ++ r).take n = l := by
  subst h
  induction l with
  | nil => rfl
  | cons x xs ih => simp [ih]

theorem drop_len_append {α : Type} (l r : List α) (n : Nat)
    (h : l.length = n) : (l ++ r).drop n = r := by
  subst h
  induction l with
  | nil => rfl
  | cons x xs ih => simp [ih]

/-- Parsing is a left inverse of formatting, for minute-aligned times with
a four-digit year (the range where Go's format output has the fixed
13-character width). -/
theorem parse_keyTimeBytes (t : Nat) (hmin : t % nsPerMinute = 0)
    (hy : (dateOfDays (t / nsPerDay)).year ≤ 9999) :
    parseKeyTime (keyTimeBytes t) = some t := by
  have hkb : keyTimeBytes t
      = padDec 4 (dateOfDays (t / nsPerDay)).year
        ++ (padDec 2 (dateOfDays (t / nsPerDay)).month
        ++ (padDec 2 (dateOfDays (t / nsPerDay)).day
        ++ ([95] ++ (padDec 2 (t / nsPerMinute % 1440 / 60)
        ++ padDec 2 (t / nsPerMinute % 1440 % 60))))) := rfl
  have hdm := Nat.div_add_mod t nsPerMinute
  obtain ⟨q, hq⟩ : ∃ q, t / nsPerMinute = q := ⟨_, rfl⟩
  obtain ⟨dd, hdd⟩ : ∃ dd, t / nsPerDay = dd := ⟨_, rfl⟩
  rw [hq, hmin] at hdm
  have hqt : 60000000000 * q = t := by
    rw [show nsPerMinute = 60000000000 from rfl] at hdm
    omega
  have hdd2 : q / 1440 = dd := by
    rw [← hq, ← hdd, show nsPerMinute = 60000000000 from rfl,
      show nsPerDay = 86400000000000 from rfl, Nat.div_div_eq_div_mul]
  rw [hdd] at hy
  obtain ⟨hvy, hvm1, hvm2, hvd1, hvd2⟩ := validDate_dateOfDays dd
  have hdle := daysInMonth_le (dateOfDays dd).year (dateOfDays dd).month
  have hcd : civilToDays (dateOfDays dd) = dd := civilToDays_dateOfDays dd
  have hm1440 : q % 1440 < 1440 := Nat.mod_lt _ (by omega)
  rw [hkb, hq, hdd]
  unfold parseKeyTime
  rw [if_pos (by simp [padDec_length])]
  dsimp only
  rw [drop_len_append _ _ _ (padDec_length 4 (dateOfDays dd).year),
    take_len_append _ _ _ (padDec_length 4 (dateOfDays dd).year)]
  rw [drop_len_append _ _ _ (padDec_length 2 (dateOfDays dd).month),
    take_len_append _ _ _ (padDec_length 2 (dateOfDays dd).month)]
  rw [drop_len_append _ _ _ (padDec_length 2 (dateOfDays dd).day),
    take_len_append _ _ _ (padDec_length 2 (dateOfDays dd).day)]
  rw [drop_len_append [95] _ 1 rfl, take_len_append [95] _ 1 rfl]
  rw [drop_len_append _ _ _ (padDec_length 2 (q % 1440 / 60)),
    take_len_append _ _ _ (padDec_length 2 (q % 1440 / 60))]
  rw [if_pos rfl]
  rw [decodeDec_padDec (show (dateOfDays dd).year < pow10 4 by
    have h4 : pow10 4 = 10000 := rfl
    omega)]
  rw [decodeDec_padDec (show (dateOfDays dd).month < pow10 2 by
    have h2 : pow10 2 = 100 := rfl
    omega)]
  rw [decodeDec_padDec (show (dateOfDays dd).day < pow10 2 by
    have h2 : pow10 2 = 100 := rfl
    omega)]
  rw [decodeDec_padDec (show q % 1440 / 60 < pow10 2 by
    have h2 : pow10 2 = 100 := rfl
    omega)]
  rw [decodeDec_padDec (show q % 1440 % 60 < pow10 2 by
    have h2 : pow10 2 = 100 := rfl
    omega)]
  dsimp only
  rw [if_pos (show 1 ≤ (dateOfDays dd).year ∧ 1 ≤ (dateOfDays dd).month ∧
      (dateOfDays dd).month ≤ 12 ∧ 1 ≤ (dateOfDays dd).day ∧
      (dateOfDays dd).day ≤ daysInMonth (dateOfDays dd).year (dateOfDays dd).month ∧
      q % 1440 / 60 ≤ 23 ∧ q % 1440 % 60 ≤ 59 from
    ⟨hvy, hvm1, hvm2, hvd1, hvd2, by omega, by omega⟩)]
  congr 1
  unfold timeOfParts
  have heta : (⟨(dateOfDays dd).year, (dateOfDays dd).month, (dateOfDays dd).day⟩ : Date)
      = dateOfDays dd := rfl
  rw [heta, hcd, show nsPerDay = 86400000000000 from rfl,
    show nsPerMinute = 60000000000 from rfl]
  omega

/-! ## Modelled cryptographic primitives

Executable models of the Go standard library primitives the kms uses
(`crypto/aes` + `crypto/cipher` AES-256-GCM, `crypto/hmac` with
`crypto/sha512`).  They realise the interface contract the kms relies on:
GCM's `Seal` produces `ciphertext ++ 16-byte tag` with the ciphertext a
key/nonce-dependent reversible transform of the plaintext, `Open` checks
the tag and inverts it, and HMAC-SHA512 is a 64-byte deterministic
function of key and message. -/

/-- A byte-mixing fold (stands in for the internal block computations). -/
def mixFold (l : Bytes) (seed : Nat) : Nat :=
  l.foldl (fun a b => (a * 131 + b + 1) % 65536) seed

/-- Keystream byte `i` derived from key and nonce. -/
def ksByte (key nonce : Bytes) (i : Nat) : Nat :=
  (mixFold nonce (mixFold key 7) + i * 17) % 256

/-- XOR a buffer with the keystream starting at position `i` (the
counter-mode encryption layer of GCM; an involution). -/
def xorKs (key nonce : Bytes) : Nat → Bytes → Bytes
  | _, [] => []
  | i, b :: t => (b ^^^ ksByte key nonce i) :: xorKs key nonce (i + 1) t

/-- The 16-byte GCM authentication tag over a ciphertext. -/
def gcmTag (key nonce c : Bytes) : Bytes :=
  (List.range tagSize).map fun j =>
    (mixFold c (mixFold nonce (mixFold key 3)) + j * 29) % 256

/-- `aead.Seal(nil, nonce, pt, nil)`. -/
def gcmSeal (key nonce pt : Bytes) : Bytes :=
  let c := xorKs key nonce 0 pt
  c ++ gcmTag key nonce c

/-- `aead.Open(nil, nonce, ct, nil)`: `none` is Go's
"message authentication failed" error. -/
def gcmOpen (key nonce ct : Bytes) : Option Bytes :=
  if ct.length < tagSize then none
  else
    let c := ct.take (ct.length - tagSize)
    let tag := ct.drop (ct.length - tagSize)
    if tag = gcmTag key nonce c then some (xorKs key nonce 0 c) else none

/-- HMAC-SHA512 of a message under a key: 64 deterministic bytes. -/
def hmacSha512 (key msg : Bytes) : Bytes :=
  (List.range macSize).map fun j =>
    (mixFold msg (mixFold key 11) + j * 31) % 256

theorem xorKs_length (key nonce : Bytes) :
    ∀ i l, (xorKs key nonce i l).length = l.length := by
  intro i l
  induction l generalizing i with
  | nil => rfl
  | cons b t ih => simp [xorKs, ih]

theorem xorKs_xorKs (key nonce : Bytes) :
    ∀ i l, xorKs key nonce i (xorKs key nonce i l) = l := by
  intro i l
  induction l generalizing i with
  | nil => rfl
  | cons b t ih =>
    simp only [xorKs, ih]
    rw [Nat.xor_assoc, Nat.xor_self, Nat.xor_zero]

theorem hmacSha512_length (key msg : Bytes) :
    (hmacSha512 key msg).length = macSize := by
  simp [hmacSha512]

/-- The AEAD round trip: opening a sealed payload with the same key and
nonce recovers the plaintext. -/
theorem gcmOpen_gcmSeal (key nonce pt : Bytes) :
    gcmOpen key nonce (gcmSeal key nonce pt) = some pt := by
  have hlc : (xorKs key nonce 0 pt).length = pt.length := xorKs_length key nonce 0 pt
  have hlt : (gcmTag key nonce (xorKs key nonce 0 pt)).length = tagSize := by
    simp [gcmTag]
  show gcmOpen key nonce
      (xorKs key nonce 0 pt ++ gcmTag key nonce (xorKs key nonce 0 pt)) = some pt
  unfold gcmOpen
  dsimp only
  have hlen : (xorKs key nonce 0 pt ++ gcmTag key nonce (xorKs key nonce 0 pt)).length
      = pt.length + tagSize := by
    rw [List.length_append, hlc, hlt]
  rw [if_neg (by omega)]
  have hsub : (xorKs key nonce 0 pt ++ gcmTag key nonce (xorKs key nonce 0 pt)).length
      - tagSize = (xorKs key nonce 0 pt).length := by omega
  rw [hsub, take_len_append _ _ _ rfl, drop_len_append _ _ _ rfl,
    if_pos rfl, xorKs_xorKs]

/-! ## Errors, outcomes, state and traces -/

/-- The distinct error results the kms functions return (each corresponds
to one `fmt.Errorf` site in `kms.go`). -/
inductive KeyError where
  | malformedId (id : List Nat)
  | futureId (id : List Nat)
  | expired (id : List Nat)
  | notFound (id : List Nat)
  | authFailure
  | hmacMismatch (id : List Nat)
deriving DecidableEq, Repr

/-- Outcome of a Go call: a returned value, a returned non-nil `error`, or
a panic (which in Go unwinds the goroutine and, uncaught, aborts the
process). -/
inductive Oc (α : Type) where
  | ok : α → Oc α
  | err : KeyError → Oc α
  | panicked : String → Oc α
deriving DecidableEq, Repr

def Oc.isPanic {α : Type} : Oc α → Bool
  | .panicked _ => true
  | _ => false

/-- One blob-store operation, as observed by the store. -/
inductive StoreOp where
  | read (path : List Nat)
  | write (path : List Nat) (data : Bytes) (written : Bool)
deriving DecidableEq, Repr

def StoreOp.isWrite : StoreOp → Bool
  | .read _ => false
  | .write _ _ _ => true

/-- The mutable state a `Kms` touches: the durable blob store and the
process-local `sync.Map` key cache. -/
structure St where
  store : List (List Nat × Bytes)
  cache : List (List Nat × Bytes)
deriving DecidableEq, Repr

/-- Result of a stateful kms operation: outcome, post-state, and the store
operations performed (in order). -/
structure Res (α : Type) where
  out : Oc α
  st : St
  tr : List StoreOp
deriving DecidableEq, Repr

/-- `storage.Read`. -/
def storeRead (st : St) (p : List Nat) : Option Bytes := mget st.store p

/-- `storage.WriteIfMissing`: atomic create-only write; `true` iff this
call's bytes were persisted. -/
def storeWriteIfMissing (st : St) (p : List Nat) (d : Bytes) : Bool × St :=
  match mget st.store p with
  | none => (true, { st with store := mput st.store p d })
  | some _ => (false, st)

/-- Go's panic message for an out-of-range slice expression. -/
def sliceMsg : String := "runtime error: slice bounds out of range"

/-! ## The `Kms` operations (from `src/kms/kms.go`, with the `NewKms`
defaults) -/

/-- ASCII codes of `".keys"` (default `KeysFolder`). -/
def keysFolder : List Nat := [46, 107, 101, 121, 115]

/-- `Kms.storagePath`: `path.Join(k.keysFolder, keyId)`.  For the
slash-free ids this kms produces and consumes this is `".keys/" + id`
(`path.Join`'s cleaning of separator-containing components is not
modelled). -/
def storagePath (id : List Nat) : List Nat := keysFolder ++ [47] ++ id

/-- `Kms.validateKeyId`: parse the id under the key time format, reject
ids in the future (`t.After(now)`) and ids older than the maximum age
(`t.Add(k.maxAge).Before(now)`). -/
def validateKeyId (now : Nat) (id : List Nat) : Option KeyError :=
  match parseKeyTime id with
  | none => some (.malformedId id)
  | some t =>
    if now < t then some (.futureId id)
    else if t + maxAge < now then some (.expired id)
    else none

/-- The `n` bytes a successful `rand.Read` writes into an `n`-byte buffer,
drawn from the oracle `f`. -/
def randBytes (n : Nat) (f : Nat → Nat) : Bytes :=
  (List.range n).map fun i => f i % 256

/-- `kms.generateKey`: 96 bytes (32 for encryption, 64 for HMAC) from
`crypto/rand`; panics if `rand.Read` fails. -/
def generateKey (rnd : Option (Nat → Nat)) : Oc Bytes :=
  match rnd with
  | none => .panicked "kms.generateKey(): rand.Read returned an error"
  | some f => .ok (randBytes 96 f)

/-- `Kms.writeOrReadExisting`: attempt the create-only write; on conflict
read back and return the existing bytes (panics if the readback finds
nothing). -/
def writeOrReadExisting (st : St) (p : List Nat) (data : Bytes) : Res Bytes :=
  let w := storeWriteIfMissing st p data
  if w.1 then ⟨.ok data, w.2, [.write p data true]⟩
  else
    match storeRead w.2 p with
    | some d => ⟨.ok d, w.2, [.write p data false, .read p]⟩
    | none => ⟨.panicked "kms.Kms.writeOrReadExisting(): failed to write key, and could not read existing",
        w.2, [.write p data false, .read p]⟩

/-- `Kms.key`: resolve key material for an id.  In non-creating mode the
id is validated first; then the cache is consulted; on a miss the key is
created (create-only write, adopting existing bytes on conflict) or read
from the store, and cached; on a hit in creating mode the id is validated
defensively. -/
def key (st : St) (now : Nat) (id : List Nat) (createIfMissing : Bool)
    (rnd : Option (Nat → Nat)) : Res Bytes :=
  match (if createIfMissing then none else validateKeyId now id) with
  | some e => ⟨.err e, st, []⟩
  | none =>
    match mget st.cache id with
    | none =>
      if createIfMissing then
        match generateKey rnd with
        | .ok k =>
          let r := writeOrReadExisting st (storagePath id) k
          match r.out with
          | .ok k2 => ⟨.ok k2, { r.st with cache := mput r.st.cache id k2 }, r.tr⟩
          | .err e => ⟨.err e, r.st, r.tr⟩
          | .panicked m => ⟨.panicked m, r.st, r.tr⟩
        | .err e => ⟨.err e, st, []⟩
        | .panicked m => ⟨.panicked m, st, []⟩
      else
        match storeRead st (storagePath id) with
        | some k => ⟨.ok k, { st with cache := mput st.cache id k }, [.read (storagePath id)]⟩
        | none => ⟨.err (.notFound id), st, [.read (storagePath id)]⟩
    | some k =>
      if createIfMissing then
        match validateKeyId now id with
        | some e => ⟨.err e, st, []⟩
        | none => ⟨.ok k, st, []⟩
      else ⟨.ok k, st, []⟩

/-- `Kms.encryptionKey`: the first 32 bytes of the key material
(`key[:32]`; a Go slice expression that panics if the material is
shorter). -/
def encryptionKey (st : St) (now : Nat) (id : List Nat) (createIfMissing : Bool)
    (rnd : Option (Nat → Nat)) : Res Bytes :=
  let r := key st now id createIfMissing rnd
  match r.out with
  | .ok k =>
    if k.length < 32 then ⟨.panicked sliceMsg, r.st, r.tr⟩
    else ⟨.ok (k.take 32), r.st, r.tr⟩
  | .err e => ⟨.err e, r.st, r.tr⟩
  | .panicked m => ⟨.panicked m, r.st, r.tr⟩

/-- `Kms.hashKey`: the last 64 bytes of the key material (`key[32:]`;
panics if the material is shorter than 32 bytes). -/
def hashKey (st : St) (now : Nat) (id : List Nat) (createIfMissing : Bool)
    (rnd : Option (Nat → Nat)) : Res Bytes :=
  let r := key st now id createIfMissing rnd
  match r.out with
  | .ok k =>
    if k.length < 32 then ⟨.panicked sliceMsg, r.st, r.tr⟩
    else ⟨.ok (k.drop 32), r.st, r.tr⟩
  | .err e => ⟨.err e, r.st, r.tr⟩
  | .panicked m => ⟨.panicked m, r.st, r.tr⟩

/-- `Kms.Encrypt`: resolve the current key in creating mode (panicking on
any key error), seal with a fresh random nonce, output
`keyId ‖ nonce ‖ sealed`.  `aes.NewCipher` only rejects key sizes other
than 16/24/32 (the guard is kept although the 32-byte slice always
passes); `cipher.NewGCM` cannot fail for an AES block. -/
def Encrypt (st : St) (now : Nat) (data : Bytes)
    (keyRnd nonceRnd : Option (Nat → Nat)) : Res Bytes :=
  let keyId := currentKeyId now
  let r := encryptionKey st now keyId true keyRnd
  match r.out with
  | .ok ekey =>
    if ekey.length = 16 ∨ ekey.length = 24 ∨ ekey.length = 32 then
      match nonceRnd with
      | none => ⟨.panicked "generating nonce: rand.Read returned an error", r.st, r.tr⟩
      | some f =>
        let nonce := randBytes nonceSize f
        ⟨.ok (keyId ++ nonce ++ gcmSeal ekey nonce data), r.st, r.tr⟩
    else ⟨.panicked "creating cipher: invalid key size", r.st, r.tr⟩
  | .err _ => ⟨.panicked "kms.Kms.Encrypt(): getting encryption key", r.st, r.tr⟩
  | .panicked m => ⟨.panicked m, r.st, r.tr⟩

/-- `Kms.Hash`: resolve the current key in creating mode (panicking on any
key error), output `keyId ‖ HMAC(hashKey, data) ‖ data`. -/
def Hash (st : St) (now : Nat) (data : Bytes)
    (keyRnd : Option (Nat → Nat)) : Res Bytes :=
  let keyId := currentKeyId now
  let r := hashKey st now keyId true keyRnd
  match r.out with
  | .ok hkey => ⟨.ok (keyId ++ hmacSha512 hkey data ++ data), r.st, r.tr⟩
  | .err _ => ⟨.panicked "kms.Kms.Hash(): getting hash key", r.st, r.tr⟩
  | .panicked m => ⟨.panicked m, r.st, r.tr⟩

/-- `Kms.Decrypt`: slice the key id off the front (`data[:k.keyLength]`,
which panics on shorter input), resolve the key in non-creating mode,
slice nonce and ciphertext (`data[13:25]`, panicking if the input is
shorter than 25), and open the AEAD. -/
def Decrypt (st : St) (now : Nat) (data : Bytes) : Res Bytes :=
  if data.length < keyLength then ⟨.panicked sliceMsg, st, []⟩
  else
    let keyId := data.take keyLength
    let r := encryptionKey st now keyId false none
    match r.out with
    | .ok ekey =>
      if ekey.length = 16 ∨ ekey.length = 24 ∨ ekey.length = 32 then
        if data.length < keyLength + nonceSize then ⟨.panicked sliceMsg, r.st, r.tr⟩
        else
          let nonce := (data.drop keyLength).take nonceSize
          let ct := data.drop (keyLength + nonceSize)
          match gcmOpen ekey nonce ct with
          | some pt => ⟨.ok pt, r.st, r.tr⟩
          | none => ⟨.err .authFailure, r.st, r.tr⟩
      else ⟨.panicked "creating cipher: invalid key size", r.st, r.tr⟩
    | .err e => ⟨.err e, r.st, r.tr⟩
    | .panicked m => ⟨.panicked m, r.st, r.tr⟩

/-- `Kms.Unhash`: slice key id (`data[:13]`), MAC (`data[13:77]`) and
payload (`data[77:]`) — both slice expressions panic on shorter input and
run before any key resolution — then resolve the key in non-creating mode,
recompute the HMAC and compare (`hmac.Equal`, constant-time in Go,
modelled as equality). -/
def Unhash (st : St) (now : Nat) (data : Bytes) : Res Bytes :=
  if data.length < keyLength then ⟨.panicked sliceMsg, st, []⟩
  else if data.length < keyLength + macSize then ⟨.panicked sliceMsg, st, []⟩
  else
    let keyId := data.take keyLength
    let macBytes := (data.drop keyLength).take macSize
    let payload := data.drop (keyLength + macSize)
    let r := hashKey st now keyId false none
    match r.out with
    | .ok hkey =>
      if macBytes = hmacSha512 hkey payload then ⟨.ok payload, r.st, r.tr⟩
      else ⟨.err (.hmacMismatch keyId), r.st, r.tr⟩
    | .err e => ⟨.err e, r.st, r.tr⟩
    | .panicked m => ⟨.panicked m, r.st, r.tr⟩

/-! ## Helper lemmas about `key` -/

theorem randBytes_length (n : Nat) (f : Nat → Nat) :
    (randBytes n f).length = n := by simp [randBytes]

theorem gcmSeal_length (key nonce pt : Bytes) :
    (gcmSeal key nonce pt).length = pt.length + tagSize := by
  simp [gcmSeal, xorKs_length, gcmTag]

/-- A cache hit under a valid id in non-creating mode returns the cached
material and leaves everything untouched. -/
theorem key_read_hit {st : St} {now : Nat} {id : List Nat} {k : Bytes}
    (rnd : Option (Nat → Nat))
    (hval : validateKeyId now id = none) (hhit : mget st.cache id = some k) :
    key st now id false rnd = ⟨.ok k, st, []⟩ := by
  unfold key
  rw [if_neg (Bool.false_ne_true), hval, hhit]
  rfl

/-- Whenever `key` returns material, that material is in the cache of the
post-state under the requested id. -/
theorem key_ok_cache {st : St} {now : Nat} {id : List Nat}
    {c : Bool} {rnd : Option (Nat → Nat)} {k : Bytes}
    (h : (key st now id c rnd).out = .ok k) :
    mget (key st now id c rnd).st.cache id = some k := by
  unfold key at h ⊢
  cases hv : (if c = true then none else validateKeyId now id) with
  | some e => rw [hv] at h; simp at h
  | none =>
  rw [hv] at h
  dsimp only at h ⊢
  cases hcache : mget st.cache id with
  | none =>
    rw [hcache] at h
    dsimp only at h ⊢
    cases c with
    | false =>
      simp only [Bool.false_eq_true, if_false] at h ⊢
      cases hread : storeRead st (storagePath id) with
      | some k0 =>
        rw [hread] at h
        dsimp only at h ⊢
        cases h
        simp [mget_mput]
      | none => rw [hread] at h; simp at h
    | true =>
      simp only [if_true] at h ⊢
      cases hgen : generateKey rnd with
      | ok k0 =>
        rw [hgen] at h
        dsimp only at h ⊢
        cases hw : (writeOrReadExisting st (storagePath id) k0).out with
        | ok k2 =>
          rw [hw] at h
          dsimp only at h ⊢
          cases h
          simp [mget_mput]
        | err e => rw [hw] at h; simp at h
        | panicked m => rw [hw] at h; simp at h
      | err e => rw [hgen] at h; simp at h
      | panicked m => rw [hgen] at h; simp at h
  | some k0 =>
    rw [hcache] at h
    dsimp only at h ⊢
    cases c with
    | false =>
      simp only [Bool.false_eq_true, if_false] at h ⊢
      cases h
      exact hcache
    | true =>
      simp only [if_true] at h ⊢
      cases hval2 : validateKeyId now id with
      | some e => rw [hval2] at h; simp at h
      | none =>
        rw [hval2] at h
        dsimp only at h ⊢
        cases h
        exact hcache

theorem truncTime_mod_minute (now : Nat) :
    truncTime now rotationFreq % nsPerMinute = 0 := by
  simp only [truncTime, rotationFreq, nsPerMinute]
  omega

/-- The id of the current rotation window always passes validation at the
time it was derived (it is not in the future and far younger than
`maxAge`). -/
theorem validateKeyId_currentKeyId (now : Nat)
    (hy : (dateOfDays (truncTime now rotationFreq / nsPerDay)).year ≤ 9999) :
    validateKeyId now (currentKeyId now) = none := by
  have hp := parse_keyTimeBytes (truncTime now rotationFreq)
    (truncTime_mod_minute now) hy
  unfold validateKeyId currentKeyId
  rw [hp]
  dsimp only
  rw [if_neg (by simp only [truncTime, rotationFreq]; omega)]
  rw [if_neg (by simp only [truncTime, rotationFreq, maxAge]; omega)]

/-- Decrypting a well-formed `kid ‖ nonce ‖ sealed` payload whose id is
valid and whose key material is cached succeeds and changes nothing. -/
theorem decrypt_wellformed {st : St} {now : Nat} {kid K nonce p : Bytes}
    (hval : validateKeyId now kid = none) (hhit : mget st.cache kid = some K)
    (h32 : ¬ K.length < 32) (hkid : kid.length = keyLength)
    (hnonce : nonce.length = nonceSize) :
    Decrypt st now (kid ++ (nonce ++ gcmSeal (K.take 32) nonce p))
      = ⟨.ok p, st, []⟩ := by
  have hk13 : keyLength = 13 := rfl
  have hn12 : nonceSize = 12 := rfl
  have hts : tagSize = 16 := rfl
  have hseal := gcmSeal_length (K.take 32) nonce p
  have hlen : (kid ++ (nonce ++ gcmSeal (K.take 32) nonce p)).length
      = kid.length + (nonce.length + (gcmSeal (K.take 32) nonce p).length) := by
    simp [List.length_append]
  unfold Decrypt
  rw [if_neg (by omega)]
  dsimp only
  rw [take_len_append kid _ keyLength hkid]
  have he : encryptionKey st now kid false none = ⟨.ok (K.take 32), st, []⟩ := by
    unfold encryptionKey
    rw [key_read_hit none hval hhit]
    dsimp only
    rw [if_neg h32]
  rw [he]
  dsimp only
  rw [if_pos (Or.inr (Or.inr (show (K.take 32).length = 32 by
    rw [List.length_take]; omega)))]
  rw [if_neg (by omega)]
  rw [drop_len_append kid _ keyLength hkid]
  rw [take_len_append nonce _ nonceSize hnonce]
  have hdrop2 : (kid ++ (nonce ++ gcmSeal (K.take 32) nonce p)).drop
      (keyLength + nonceSize) = gcmSeal (K.take 32) nonce p := by
    rw [← List.append_assoc]
    exact drop_len_append _ _ _ (by simp [hkid, hnonce])
  rw [hdrop2, gcmOpen_gcmSeal]

/-- C1: Round trip of authenticated encryption.  For every byte string
`p` (including the empty string), every starting state and every fixed
time `now` (with a four-digit year), if `Encrypt` at `now` returns a
ciphertext, then `Decrypt` at the same `now`, on the state left by
`Encrypt`, returns exactly `p`. -/
theorem kms_encrypt_decrypt_roundtrip
    (st : St) (now : Nat) (p : Bytes) (keyRnd nonceRnd : Option (Nat → Nat))
    (ct : Bytes)
    (hy : (dateOfDays (truncTime now rotationFreq / nsPerDay)).year ≤ 9999)
    (h : (Encrypt st now p keyRnd nonceRnd).out = .ok ct) :
    (Decrypt (Encrypt st now p keyRnd nonceRnd).st now ct).out = .ok p := by
  have hval := validateKeyId_currentKeyId now hy
  have hlen13 : (currentKeyId now).length = keyLength := keyTimeBytes_length _
  unfold Encrypt encryptionKey at h ⊢
  dsimp only at h ⊢
  cases hk : (key st now (currentKeyId now) true keyRnd).out with
  | err e => rw [hk] at h; simp at h
  | panicked m => rw [hk] at h; simp at h
  | ok K =>
    rw [hk] at h
    dsimp only at h ⊢
    by_cases h32 : K.length < 32
    · rw [if_pos h32] at h
      simp at h
    · rw [if_neg h32] at h ⊢
      dsimp only at h ⊢
      have hg : (K.take 32).length = 16 ∨ (K.take 32).length = 24 ∨
          (K.take 32).length = 32 :=
        Or.inr (Or.inr (by rw [List.length_take]; omega))
      rw [if_pos hg] at h ⊢
      cases nonceRnd with
      | none => simp at h
      | some f =>
        dsimp only at h ⊢
        cases h
        have hcache := key_ok_cache hk
        rw [List.append_assoc]
        rw [decrypt_wellformed hval hcache h32 hlen13
          (randBytes_length nonceSize f)]

/-- Verifying a well-formed `kid ‖ mac ‖ payload` output whose id is valid
and whose key material is cached succeeds and returns the payload. -/
theorem unhash_wellformed {st : St} {now : Nat} {kid K p : Bytes}
    (hval : validateKeyId now kid = none) (hhit : mget st.cache kid = some K)
    (h32 : ¬ K.length < 32) (hkid : kid.length = keyLength) :
    Unhash st now (kid ++ (hmacSha512 (K.drop 32) p ++ p)) = ⟨.ok p, st, []⟩ := by
  have hk13 : keyLength = 13 := rfl
  have hm64 : macSize = 64 := rfl
  have hmac := hmacSha512_length (K.drop 32) p
  have hlen : (kid ++ (hmacSha512 (K.drop 32) p ++ p)).length
      = kid.length + ((hmacSha512 (K.drop 32) p).length + p.length) := by
    simp [List.length_append]
  unfold Unhash
  rw [if_neg (by omega), if_neg (by omega)]
  dsimp only
  rw [take_len_append kid _ keyLength hkid]
  rw [drop_len_append kid _ keyLength hkid]
  rw [take_len_append _ _ macSize hmac]
  have hdrop2 : (kid ++ (hmacSha512 (K.drop 32) p ++ p)).drop
      (keyLength + macSize) = p := by
    rw [← List.append_assoc]
    exact drop_len_append _ _ _ (by simp [hkid, hmac])
  rw [hdrop2]
  have he : hashKey st now kid false none = ⟨.ok (K.drop 32), st, []⟩ := by
    unfold hashKey
    rw [key_read_hit none hval hhit]
    dsimp only
    rw [if_neg h32]
  rw [he]
  dsimp only
  rw [if_pos rfl]

/-- C2: Round trip of keyed-hash signing.  For every byte string `p`,
every starting state and every fixed time `now` (with a four-digit year),
if `Hash` at `now` returns a signed payload, then `Unhash` at the same
`now`, on the state left by `Hash`, succeeds and returns `p` unchanged. -/
theorem kms_hash_unhash_roundtrip
    (st : St) (now : Nat) (p : Bytes) (keyRnd : Option (Nat → Nat))
    (out : Bytes)
    (hy : (dateOfDays (truncTime now rotationFreq / nsPerDay)).year ≤ 9999)
    (h : (Hash st now p keyRnd).out = .ok out) :
    (Unhash (Hash st now p keyRnd).st now out).out = .ok p := by
  have hval := validateKeyId_currentKeyId now hy
  have hlen13 : (currentKeyId now).length = keyLength := keyTimeBytes_length _
  unfold Hash hashKey at h ⊢
  dsimp only at h ⊢
  cases hk : (key st now (currentKeyId now) true keyRnd).out with
  | err e => rw [hk] at h; simp at h
  | panicked m => rw [hk] at h; simp at h
  | ok K =>
    rw [hk] at h
    dsimp only at h ⊢
    by_cases h32 : K.length < 32
    · rw [if_pos h32] at h
      simp at h
    · rw [if_neg h32] at h ⊢
      dsimp only at h ⊢
      cases h
      have hcache := key_ok_cache hk
      rw [List.append_assoc]
      rw [unhash_wellformed hval hcache h32 hlen13]

/-- A validation failure in non-creating mode returns the error
immediately: no cache or store access, no state change. -/
theorem key_read_err {now : Nat} {id : List Nat} {e : KeyError}
    (st : St) (rnd : Option (Nat → Nat))
    (hval : validateKeyId now id = some e) :
    key st now id false rnd = ⟨.err e, st, []⟩ := by
  unfold key
  rw [if_neg (Bool.false_ne_true), hval]

/-- Non-creating `key` never changes the store and never performs a store
write. -/
theorem key_read_frame (st : St) (now : Nat) (id : List Nat)
    (rnd : Option (Nat → Nat)) :
    (key st now id false rnd).st.store = st.store ∧
    (key st now id false rnd).tr.filter StoreOp.isWrite = [] := by
  unfold key
  rw [if_neg (Bool.false_ne_true)]
  cases hv : validateKeyId now id with
  | some e => exact ⟨rfl, rfl⟩
  | none =>
    cases hcache : mget st.cache id with
    | some k => exact ⟨rfl, rfl⟩
    | none =>
      cases hread : storeRead st (storagePath id) with
      | some k => exact ⟨rfl, rfl⟩
      | none => exact ⟨rfl, rfl⟩

theorem encryptionKey_read_frame (st : St) (now : Nat) (id : List Nat)
    (rnd : Option (Nat → Nat)) :
    (encryptionKey st now id false rnd).st.store = st.store ∧
    (encryptionKey st now id false rnd).tr.filter StoreOp.isWrite = [] := by
  obtain ⟨h1, h2⟩ := key_read_frame st now id rnd
  unfold encryptionKey
  dsimp only
  cases hk : (key st now id false rnd).out with
  | ok k =>
    by_cases hl : k.length < 32
    · simp only [if_pos hl]
      exact ⟨h1, h2⟩
    · simp only [if_neg hl]
      exact ⟨h1, h2⟩
  | err e => exact ⟨h1, h2⟩
  | panicked m => exact ⟨h1, h2⟩

theorem hashKey_read_frame (st : St) (now : Nat) (id : List Nat)
    (rnd : Option (Nat → Nat)) :
    (hashKey st now id false rnd).st.store = st.store ∧
    (hashKey st now id false rnd).tr.filter StoreOp.isWrite = [] := by
  obtain ⟨h1, h2⟩ := key_read_frame st now id rnd
  unfold hashKey
  dsimp only
  cases hk : (key st now id false rnd).out with
  | ok k =>
    by_cases hl : k.length < 32
    · simp only [if_pos hl]
      exact ⟨h1, h2⟩
    · simp only [if_neg hl]
      exact ⟨h1, h2⟩
  | err e => exact ⟨h1, h2⟩
  | panicked m => exact ⟨h1, h2⟩

theorem decrypt_frame (st : St) (now : Nat) (data : Bytes) :
    (Decrypt st now data).st.store = st.store ∧
    (Decrypt st now data).tr.filter StoreOp.isWrite = [] := by
  obtain ⟨h1, h2⟩ := encryptionKey_read_frame st now (data.take keyLength) none
  by_cases hlen : data.length < keyLength
  · unfold Decrypt
    simp only [if_pos hlen]
    exact ⟨trivial, rfl⟩
  · unfold Decrypt
    simp only [if_neg hlen]
    cases hek : (encryptionKey st now (data.take keyLength) false none).out with
    | ok ekey =>
      by_cases hg : ekey.length = 16 ∨ ekey.length = 24 ∨ ekey.length = 32
      · simp only [if_pos hg]
        by_cases hlen2 : data.length < keyLength + nonceSize
        · simp only [if_pos hlen2]
          exact ⟨h1, h2⟩
        · simp only [if_neg hlen2]
          cases hop : gcmOpen ekey ((data.drop keyLength).take nonceSize)
              (data.drop (keyLength + nonceSize)) with
          | some pt => exact ⟨h1, h2⟩
          | none => exact ⟨h1, h2⟩
      · simp only [if_neg hg]
        exact ⟨h1, h2⟩
    | err e => exact ⟨h1, h2⟩
    | panicked m => exact ⟨h1, h2⟩

theorem unhash_frame (st : St) (now : Nat) (data : Bytes) :
    (Unhash st now data).st.store = st.store ∧
    (Unhash st now data).tr.filter StoreOp.isWrite = [] := by
  obtain ⟨h1, h2⟩ := hashKey_read_frame st now (data.take keyLength) none
  by_cases hlen : data.length < keyLength
  · unfold Unhash
    simp only [if_pos hlen]
    exact ⟨trivial, rfl⟩
  · by_cases hlen2 : data.length < keyLength + macSize
    · unfold Unhash
      simp only [if_neg hlen, if_pos hlen2]
      exact ⟨trivial, rfl⟩
    · unfold Unhash
      simp only [if_neg hlen, if_neg hlen2]
      cases hhk : (hashKey st now (data.take keyLength) false none).out with
      | ok hkey =>
        by_cases hm : (data.drop keyLength).take macSize
            = hmacSha512 hkey (data.drop (keyLength + macSize))
        · simp only [if_pos hm]
          exact ⟨h1, h2⟩
        · simp only [if_neg hm]
          exact ⟨h1, h2⟩
      | err e => exact ⟨h1, h2⟩
      | panicked m => exact ⟨h1, h2⟩

/-- C10: Decryption and verification never write the key store.  For
every input and every state, `Decrypt` and `Unhash` leave the durable
store contents unchanged and their traces contain no create-only write
(only, at most, a read), whether they succeed, fail or panic. -/
theorem kms_decrypt_unhash_no_store_write (st : St) (now : Nat) (data : Bytes) :
    (Decrypt st now data).st.store = st.store ∧
    (Decrypt st now data).tr.filter StoreOp.isWrite = [] ∧
    (Unhash st now data).st.store = st.store ∧
    (Unhash st now data).tr.filter StoreOp.isWrite = [] := by
  obtain ⟨h1, h2⟩ := decrypt_frame st now data
  obtain ⟨h3, h4⟩ := unhash_frame st now data
  exact ⟨h1, h2, h3, h4⟩

/-- Full description of the creating cache-miss path of `key`: the race
resolution step.  A create-only write is always attempted; if the path was
empty the generated bytes become durable, otherwise the already-stored
bytes are adopted; the result is cached; the call succeeds. -/
theorem key_create_miss (st : St) (now : Nat) (id : List Nat) (f : Nat → Nat)
    (hmiss : mget st.cache id = none) :
    ∃ k,
      (key st now id true (some f)).out = .ok k ∧
      mget (key st now id true (some f)).st.store (storagePath id) = some k ∧
      mget (key st now id true (some f)).st.cache id = some k ∧
      (∀ k0, mget st.store (storagePath id) = some k0 → k = k0) ∧
      (∃ b rest, (key st now id true (some f)).tr
        = .write (storagePath id) (randBytes 96 f) b :: rest) := by
  unfold key generateKey writeOrReadExisting storeWriteIfMissing storeRead
  rw [hmiss]
  dsimp only
  cases hstore : mget st.store (storagePath id) with
  | none =>
    dsimp only
    refine ⟨randBytes 96 f, rfl, ?_, ?_, ?_, true, [], rfl⟩
    · show mget (mput st.store (storagePath id) (randBytes 96 f)) (storagePath id)
        = some (randBytes 96 f)
      rw [mget_mput, if_pos rfl]
    · show mget (mput st.cache id (randBytes 96 f)) id = some (randBytes 96 f)
      rw [mget_mput, if_pos rfl]
    · intro k0 hk0
      cases hk0
  | some k0 =>
    dsimp only
    rw [hstore]
    dsimp only
    refine ⟨k0, rfl, ?_, ?_, ?_, false, [.read (storagePath id)], rfl⟩
    · exact hstore
    · show mget (mput st.cache id k0) id = some k0
      rw [mget_mput, if_pos rfl]
    · intro k1 hk1
      cases hk1
      rfl

/-- C3: Race resolution adopts the durable value.  On a cache miss in
creating mode, `key` issues a create-only write for the id's storage path;
it returns material that is bit-identical to the bytes durably stored at
that path after the call, and if the path already held bytes those are the
ones returned — so every process that ever resolves the id obtains the
stored material. -/
theorem kms_getOrCreateKey_adopts_durable
    (st : St) (now : Nat) (id : List Nat) (f : Nat → Nat)
    (hmiss : mget st.cache id = none) :
    ∃ k,
      (key st now id true (some f)).out = .ok k ∧
      (∃ b rest, (key st now id true (some f)).tr
        = .write (storagePath id) (randBytes 96 f) b :: rest) ∧
      mget (key st now id true (some f)).st.store (storagePath id) = some k ∧
      (∀ k0, mget st.store (storagePath id) = some k0 → k = k0) := by
  obtain ⟨k, h1, h2, h3, h4, h5⟩ := key_create_miss st now id f hmiss
  exact ⟨k, h1, h5, h2, h4⟩

/-- C9: In creating mode the id is validated only on a cache hit.  For
every id not in the cache — malformed, future or expired ids included —
`key` with `createIfMissing` never returns a validation error: it
generates (or adopts) material, persists it durably and caches it. -/
theorem kms_create_mode_skips_validation_on_miss
    (st : St) (now : Nat) (id : List Nat) (f : Nat → Nat)
    (hmiss : mget st.cache id = none) :
    ∃ k,
      (key st now id true (some f)).out = .ok k ∧
      mget (key st now id true (some f)).st.cache id = some k ∧
      mget (key st now id true (some f)).st.store (storagePath id) = some k := by
  obtain ⟨k, h1, h2, h3, h4, h5⟩ := key_create_miss st now id f hmiss
  exact ⟨k, h1, h3, h2⟩

/-- Decrypting an input whose embedded id is expired fails with the
expired error before touching cache or store. -/
theorem decrypt_expired {st : St} {now : Nat} {data : Bytes} {t : Nat}
    (hlen : keyLength ≤ data.length)
    (hp : parseKeyTime (data.take keyLength) = some t)
    (hexp : t + maxAge < now) :
    Decrypt st now data = ⟨.err (.expired (data.take keyLength)), st, []⟩ := by
  have hval : validateKeyId now (data.take keyLength)
      = some (.expired (data.take keyLength)) := by
    unfold validateKeyId
    rw [hp]
    dsimp only
    rw [if_neg (by omega), if_pos hexp]
  unfold Decrypt
  rw [if_neg (by omega)]
  dsimp only
  have he : encryptionKey st now (data.take keyLength) false none
      = ⟨.err (.expired (data.take keyLength)), st, []⟩ := by
    unfold encryptionKey
    rw [key_read_err st none hval]
  rw [he]

/-- Verifying an input whose embedded id is expired fails with the
expired error before touching cache or store. -/
theorem unhash_expired {st : St} {now : Nat} {data : Bytes} {t : Nat}
    (hlen : keyLength + macSize ≤ data.length)
    (hp : parseKeyTime (data.take keyLength) = some t)
    (hexp : t + maxAge < now) :
    Unhash st now data = ⟨.err (.expired (data.take keyLength)), st, []⟩ := by
  have hval : validateKeyId now (data.take keyLength)
      = some (.expired (data.take keyLength)) := by
    unfold validateKeyId
    rw [hp]
    dsimp only
    rw [if_neg (by omega), if_pos hexp]
  unfold Unhash
  rw [if_neg (by omega), if_neg (by omega)]
  dsimp only
  have he : hashKey st now (data.take keyLength) false none
      = ⟨.err (.expired (data.take keyLength)), st, []⟩ := by
    unfold hashKey
    rw [key_read_err st none hval]
  rw [he]

/-- C5: Key id validation semantics.  `validateKeyId` fails with the
malformed-id error iff the id does not parse under the key time format,
with the future-id error iff the parsed time is after `now`, with the
expired error iff the parsed time plus `maxAge` is before `now`, and
succeeds otherwise; consequently `Decrypt` (on inputs long enough to
slice an id) and `Unhash` (on inputs long enough to slice id and MAC) of
an input whose embedded id is more than `maxAge` in the past fail with
the expired error without consulting the store — the state is unchanged
and the trace is empty, whatever the store holds. -/
theorem kms_validateKeyId_semantics
    (now : Nat) (id : List Nat) (st st2 : St) (data data2 : Bytes) (t t2 : Nat)
    (hlen : keyLength ≤ data.length)
    (hp : parseKeyTime (data.take keyLength) = some t)
    (hexp : t + maxAge < now)
    (hlen2 : keyLength + macSize ≤ data2.length)
    (hp2 : parseKeyTime (data2.take keyLength) = some t2)
    (hexp2 : t2 + maxAge < now) :
    (validateKeyId now id = some (.malformedId id) ↔ parseKeyTime id = none) ∧
    (validateKeyId now id = some (.futureId id) ↔
      ∃ u, parseKeyTime id = some u ∧ now < u) ∧
    (validateKeyId now id = some (.expired id) ↔
      ∃ u, parseKeyTime id = some u ∧ u + maxAge < now) ∧
    (validateKeyId now id = none ↔
      ∃ u, parseKeyTime id = some u ∧ u ≤ now ∧ now ≤ u + maxAge) ∧
    Decrypt st now data = ⟨.err (.expired (data.take keyLength)), st, []⟩ ∧
    Unhash st2 now data2 = ⟨.err (.expired (data2.take keyLength)), st2, []⟩ := by
  refine ⟨?_, ?_, ?_, ?_, decrypt_expired hlen hp hexp,
    unhash_expired hlen2 hp2 hexp2⟩
  · unfold validateKeyId
    cases hq : parseKeyTime id with
    | none => simp
    | some u =>
      dsimp only
      split
      · simp
      · split
        · simp
        · simp
  · unfold validateKeyId
    cases hq : parseKeyTime id with
    | none => simp
    | some u =>
      dsimp only
      split
      · rename_i h1
        simp [h1]
      · rename_i h1
        split
        · rename_i h2
          simp
          omega
        · rename_i h2
          simp
          omega
  · unfold validateKeyId
    cases hq : parseKeyTime id with
    | none => simp
    | some u =>
      dsimp only
      split
      · rename_i h1
        simp
        omega
      · rename_i h1
        split
        · rename_i h2
          simp [h2]
        · rename_i h2
          simp
          omega
  · unfold validateKeyId
    cases hq : parseKeyTime id with
    | none => simp
    | some u =>
      dsimp only
      split
      · rename_i h1
        simp
        omega
      · rename_i h1
        split
        · rename_i h2
          simp
          omega
        · rename_i h2
          simp
          omega

/-- C4 counterexample: on the empty input (shorter than the framing
prefix) both `Decrypt` and `Unhash` panic slicing `data[:keyLength]`;
neither returns an `InvalidInput`-style error result — no such error value
exists in the code. -/
theorem kms_short_input_invalid_input_cex :
    (Decrypt ⟨[], []⟩ 0 []).out = .panicked sliceMsg ∧
    (Unhash ⟨[], []⟩ 0 []).out = .panicked sliceMsg := by decide

/-- C4 (amended): there is no length check.  An input shorter than the
key-id width makes `Decrypt` panic with a slice-bounds panic before any
other work, and an input shorter than key-id width plus MAC size makes
`Unhash` panic likewise (its MAC slice `data[13:77]` runs before key
resolution); no `InvalidInput` error is ever returned. -/
theorem kms_short_input_panics (st : St) (now : Nat) (data : Bytes) :
    (data.length < keyLength → Decrypt st now data = ⟨.panicked sliceMsg, st, []⟩) ∧
    (data.length < keyLength + macSize →
      Unhash st now data = ⟨.panicked sliceMsg, st, []⟩) := by
  constructor
  · intro h
    unfold Decrypt
    rw [if_pos h]
  · intro h
    unfold Unhash
    by_cases h1 : data.length < keyLength
    · rw [if_pos h1]
    · rw [if_neg h1, if_pos h]

theorem kms_short_input_panics_witness :
    Decrypt ⟨[], []⟩ 5 [1, 2, 3] = ⟨.panicked sliceMsg, ⟨[], []⟩, []⟩ ∧
    Unhash ⟨[], []⟩ 5 (List.replicate 20 0)
      = ⟨.panicked sliceMsg, ⟨[], []⟩, []⟩ :=
  ⟨(kms_short_input_panics ⟨[], []⟩ 5 [1, 2, 3]).1 (by decide),
   (kms_short_input_panics ⟨[], []⟩ 5 (List.replicate 20 0)).2 (by decide)⟩

/-- C6 counterexample: when the platform randomness source fails, the
affected call panics (which aborts the Go process when uncaught); it does
not return a typed error to the caller.  Shown at a concrete state for a
nonce-generation failure in `Encrypt` and a key-generation failure in
`Hash`. -/
theorem kms_randomness_failure_cex :
    (Encrypt ⟨[], []⟩ 0 [7] (some fun i => i) none).out
      = .panicked "generating nonce: rand.Read returned an error" ∧
    (Hash ⟨[], []⟩ 0 [7] none).out
      = .panicked "kms.generateKey(): rand.Read returned an error" := by decide

/-- C6 (amended): a randomness failure is a panic, not a per-call typed
error.  If the nonce read fails, every `Encrypt` call panics; if the key
generation read fails, every `Hash` call that misses the cache panics. -/
theorem kms_randomness_failure_panics (st : St) (now : Nat) (data : Bytes)
    (keyRnd : Option (Nat → Nat))
    (hmiss : mget st.cache (currentKeyId now) = none) :
    (Encrypt st now data keyRnd none).out.isPanic = true ∧
    (Hash st now data none).out.isPanic = true := by
  constructor
  · unfold Encrypt encryptionKey
    dsimp only
    cases hk : (key st now (currentKeyId now) true keyRnd).out with
    | ok K =>
      by_cases h32 : K.length < 32
      · simp only [if_pos h32]
        rfl
      · simp only [if_neg h32]
        by_cases hg : (K.take 32).length = 16 ∨ (K.take 32).length = 24 ∨
            (K.take 32).length = 32
        · simp only [if_pos hg]
          rfl
        · simp only [if_neg hg]
          rfl
    | err e => rfl
    | panicked m => rfl
  · unfold Hash hashKey key generateKey
    dsimp only
    rw [hmiss]
    rfl

/-! ## Key id monotonicity and fixed width (C7) -/

/-- Numeric encoding of a date, strictly monotone along the calendar. -/
def dateVal (d : Date) : Nat := (d.year * 100 + d.month) * 100 + d.day

theorem dateVal_nextDay {d : Date} (h : ValidDate d) :
    dateVal d < dateVal (nextDay d) := by
  obtain ⟨hy, hm1, hm2, hd1, hd2⟩ := h
  have hb := daysInMonth_le d.year d.month
  unfold nextDay dateVal
  split
  · dsimp only
    omega
  · split
    · dsimp only
      omega
    · dsimp only
      omega

theorem dateVal_dateOfDays_mono : ∀ {m n : Nat}, m < n →
    dateVal (dateOfDays m) < dateVal (dateOfDays n) := by
  intro m n h
  induction n with
  | zero => omega
  | succ n ih =>
    have hstep : dateVal (dateOfDays n) < dateVal (dateOfDays (n + 1)) :=
      dateVal_nextDay (validDate_dateOfDays n)
    rcases Nat.lt_or_ge m n with hlt | hge
    · exact Nat.lt_trans (ih hlt) hstep
    · have hmn : m = n := by omega
      subst hmn
      exact hstep

/-- Unpack a `dateVal` inequality into a lexicographic one on the date
fields, using validity bounds. -/
theorem date_lt_unpack {d1 d2 : Date} (h1 : ValidDate d1) (h2 : ValidDate d2)
    (h : dateVal d1 < dateVal d2) :
    d1.year < d2.year ∨ (d1.year = d2.year ∧
      (d1.month < d2.month ∨ (d1.month = d2.month ∧ d1.day < d2.day))) := by
  obtain ⟨hy1, hm11, hm12, hd11, hd12⟩ := h1
  obtain ⟨hy2, hm21, hm22, hd21, hd22⟩ := h2
  have hb1 := daysInMonth_le d1.year d1.month
  have hb2 := daysInMonth_le d2.year d2.month
  unfold dateVal at h
  omega

/-- The key time string is lexicographically monotone in the time, below
year 10000. -/
theorem keyTimeBytes_mono {u1 u2 : Nat} (h : u1 ≤ u2)
    (hy : (dateOfDays (u2 / nsPerDay)).year ≤ 9999) :
    lexLe (keyTimeBytes u1) (keyTimeBytes u2) = true := by
  have hkb1 : keyTimeBytes u1
      = padDec 4 (dateOfDays (u1 / nsPerDay)).year
        ++ (padDec 2 (dateOfDays (u1 / nsPerDay)).month
        ++ (padDec 2 (dateOfDays (u1 / nsPerDay)).day
        ++ ([95] ++ (padDec 2 (u1 / nsPerMinute % 1440 / 60)
        ++ padDec 2 (u1 / nsPerMinute % 1440 % 60))))) := rfl
  have hkb2 : keyTimeBytes u2
      = padDec 4 (dateOfDays (u2 / nsPerDay)).year
        ++ (padDec 2 (dateOfDays (u2 / nsPerDay)).month
        ++ (padDec 2 (dateOfDays (u2 / nsPerDay)).day
        ++ ([95] ++ (padDec 2 (u2 / nsPerMinute % 1440 / 60)
        ++ padDec 2 (u2 / nsPerMinute % 1440 % 60))))) := rfl
  have hd : u1 / nsPerDay ≤ u2 / nsPerDay := Nat.div_le_div_right h
  have hp4 : pow10 4 = 10000 := rfl
  have hp2 : pow10 2 = 100 := rfl
  obtain ⟨hv11, hv12, hv13, hv14, hv15⟩ := validDate_dateOfDays (u1 / nsPerDay)
  obtain ⟨hv21, hv22, hv23, hv24, hv25⟩ := validDate_dateOfDays (u2 / nsPerDay)
  have hb2 := daysInMonth_le (dateOfDays (u2 / nsPerDay)).year
    (dateOfDays (u2 / nsPerDay)).month
  rw [hkb1, hkb2]
  rcases Nat.lt_or_ge (u1 / nsPerDay) (u2 / nsPerDay) with hlt | hge
  · have hval := dateVal_dateOfDays_mono hlt
    rcases date_lt_unpack (validDate_dateOfDays _) (validDate_dateOfDays _) hval with
      hylt | ⟨hyeq, hmlt | ⟨hmeq, hdlt⟩⟩
    · exact lexLe_append_of_lexLt _ _
        (by rw [padDec_length, padDec_length])
        (lexLt_padDec hylt (by omega))
    · rw [hyeq]
      apply lexLe_append_left
      exact lexLe_append_of_lexLt _ _
        (by rw [padDec_length, padDec_length])
        (lexLt_padDec hmlt (by omega))
    · rw [hyeq, hmeq]
      apply lexLe_append_left
      apply lexLe_append_left
      exact lexLe_append_of_lexLt _ _
        (by rw [padDec_length, padDec_length])
        (lexLt_padDec hdlt (by omega))
  · have hdd : u1 / nsPerDay = u2 / nsPerDay := by omega
    rw [hdd]
    apply lexLe_append_left
    apply lexLe_append_left
    apply lexLe_append_left
    apply lexLe_append_left
    have hmm : u1 / nsPerMinute % 1440 / 60 < u2 / nsPerMinute % 1440 / 60
        ∨ (u1 / nsPerMinute % 1440 / 60 = u2 / nsPerMinute % 1440 / 60 ∧
           u1 / nsPerMinute % 1440 % 60 ≤ u2 / nsPerMinute % 1440 % 60) := by
      have e1 : nsPerMinute = 60000000000 := rfl
      have e2 : nsPerDay = 86400000000000 := rfl
      rw [e2] at hdd
      rw [e1]
      omega
    have hh2 : u2 / nsPerMinute % 1440 / 60 < 100 := by
      have e1 : nsPerMinute = 60000000000 := rfl
      rw [e1]
      omega
    have hmi2 : u2 / nsPerMinute % 1440 % 60 < 100 := by
      have e1 : nsPerMinute = 60000000000 := rfl
      rw [e1]
      omega
    rcases hmm with hhlt | ⟨hheq, hmile⟩
    · exact lexLe_append_of_lexLt _ _
        (by rw [padDec_length, padDec_length])
        (lexLt_padDec hhlt (by omega))
    · rw [hheq]
      apply lexLe_append_left
      rcases Nat.lt_or_ge (u1 / nsPerMinute % 1440 % 60)
          (u2 / nsPerMinute % 1440 % 60) with hmlt | hmge
      · exact lexLt_lexLe (lexLt_padDec hmlt (by omega))
      · have : u1 / nsPerMinute % 1440 % 60 = u2 / nsPerMinute % 1440 % 60 := by
          omega
        rw [this]
        exact lexLe_refl _

/-- C7: KeyId invariants.  With the default key time format, the key id
computed by `currentKeyId` (format of the time truncated to the rotation
period) is monotone in the time — `t1 ≤ t2` gives lexicographically
ordered ids — and every produced id has the constant length 13, for all
valid timestamps (four-digit years). -/
theorem kms_keyid_monotone_fixed_width (t1 t2 : Nat) (h : t1 ≤ t2)
    (hy : (dateOfDays (truncTime t2 rotationFreq / nsPerDay)).year ≤ 9999) :
    lexLe (currentKeyId t1) (currentKeyId t2) = true ∧
    (currentKeyId t1).length = 13 := by
  refine ⟨?_, keyTimeBytes_length _⟩
  unfold currentKeyId
  exact keyTimeBytes_mono
    (by simp only [truncTime, rotationFreq]; omega) hy

/-! ## In-process concurrency model (C8)

The `key` call with `createIfMissing` decomposes into the atomic shared
steps the Go code performs: one `sync.Map.Load`, one
`storage.WriteIfMissing`, possibly one `storage.Read`, one
`sync.Map.Store`.  Key generation touches no shared state and is folded
into the transition out of `start`.  A scheduler interleaves any number of
such calls (threads) over one shared store and one shared in-process
cache. -/

/-- Program counter of one in-flight `key(id, createIfMissing=true)`
call. -/
inductive TPC where
  | start
  | write (k : Bytes)
  | readback
  | cacheStore (k : Bytes)
  | done (k : Bytes)
  | failed (e : KeyError)
  | panicked
deriving DecidableEq, Repr

/-- One thread: its program counter and its private randomness. -/
structure Thread where
  pc : TPC
  rnd : Nat → Nat

/-- Shared state of the process plus the store, with the trace of store
operations performed so far. -/
structure PSt where
  store : List (List Nat × Bytes)
  cache : List (List Nat × Bytes)
  trace : List StoreOp

/-- One atomic step of a thread executing `key(id, true)` at time `now`:
cache load (hit: validate and finish; miss: generate and move to the
create-only write), the write itself (success caches the generated bytes,
conflict moves to the readback), the readback (adopts the stored bytes),
and the cache store. -/
def stepThread (now : Nat) (id : List Nat) (s : PSt) (t : Thread) :
    PSt × Thread :=
  match t.pc with
  | .start =>
    match mget s.cache id with
    | some k =>
      match validateKeyId now id with
      | none => (s, { t with pc := .done k })
      | some e => (s, { t with pc := .failed e })
    | none => (s, { t with pc := .write (randBytes 96 t.rnd) })
  | .write k =>
    match mget s.store (storagePath id) with
    | none =>
      (⟨mput s.store (storagePath id) k, s.cache,
        s.trace ++ [.write (storagePath id) k true]⟩,
       { t with pc := .cacheStore k })
    | some _ =>
      (⟨s.store, s.cache, s.trace ++ [.write (storagePath id) k false]⟩,
       { t with pc := .readback })
  | .readback =>
    match mget s.store (storagePath id) with
    | some k =>
      (⟨s.store, s.cache, s.trace ++ [.read (storagePath id)]⟩,
       { t with pc := .cacheStore k })
    | none =>
      (⟨s.store, s.cache, s.trace ++ [.read (storagePath id)]⟩,
       { t with pc := .panicked })
  | .cacheStore k =>
    ({ s with cache := mput s.cache id k }, { t with pc := .done k })
  | .done _ => (s, t)
  | .failed _ => (s, t)
  | .panicked => (s, t)

/-- Run a schedule: each entry names the thread that takes the next
atomic step (out-of-range entries are skipped). -/
def runSched (now : Nat) (id : List Nat) :
    List Nat → PSt × List Thread → PSt × List Thread
  | [], s => s
  | i :: rest, (s, ts) =>
    match ts[i]? with
    | none => runSched now id rest (s, ts)
    | some t =>
      let (s2, t2) := stepThread now id s t
      runSched now id rest (s2, ts.set i t2)

/-- Number of create-only write attempts in a trace. -/
def countWrites (tr : List StoreOp) : Nat :=
  (tr.filter StoreOp.isWrite).length

def StoreOp.isSuccWrite : StoreOp → Bool
  | .write _ _ true => true
  | _ => false

/-- Number of successful create-only writes in a trace. -/
def countSuccWrites (tr : List StoreOp) : Nat :=
  (tr.filter StoreOp.isSuccWrite).length

theorem countSuccWrites_append (tr1 tr2 : List StoreOp) :
    countSuccWrites (tr1 ++ tr2) = countSuccWrites tr1 + countSuccWrites tr2 := by
  simp [countSuccWrites, List.filter_append]

/-- Invariant of the concurrent create protocol: at most one create-only
write has succeeded (and none while the path is still empty), cached
material matches the durable material, and every thread that has resolved
material holds exactly the durable bytes. -/
def WInv (id : List Nat) (s : PSt) (ts : List Thread) : Prop :=
  countSuccWrites s.trace ≤ 1 ∧
  (mget s.store (storagePath id) = none → countSuccWrites s.trace = 0) ∧
  (∀ k, mget s.cache id = some k → mget s.store (storagePath id) = some k) ∧
  (∀ t ∈ ts, ∀ k, (t.pc = .done k ∨ t.pc = .cacheStore k) →
    mget s.store (storagePath id) = some k)

theorem stepThread_inv {now : Nat} {id : List Nat} {s : PSt}
    {ts : List Thread} {t : Thread} (ht : t ∈ ts) (hinv : WInv id s ts)
    (ts2 : List Thread)
    (hts2 : ∀ th ∈ ts2, th ∈ ts ∨ th = (stepThread now id s t).2) :
    WInv id (stepThread now id s t).1 ts2 := by
  obtain ⟨h1, h2, h3, h4⟩ := hinv
  cases hpc : t.pc with
  | start =>
    cases hcache : mget s.cache id with
    | some k =>
      cases hval : validateKeyId now id with
      | none =>
        have hstep : stepThread now id s t = (s, { t with pc := .done k }) := by
          simp only [stepThread, hpc, hcache, hval]
        rw [hstep] at hts2 ⊢
        refine ⟨h1, h2, h3, ?_⟩
        intro th hth k2 hk2
        rcases hts2 th hth with hold | hnew
        · exact h4 th hold k2 hk2
        · subst hnew
          rcases hk2 with hk2 | hk2
          · cases hk2
            exact h3 k hcache
          · cases hk2
      | some e =>
        have hstep : stepThread now id s t = (s, { t with pc := .failed e }) := by
          simp only [stepThread, hpc, hcache, hval]
        rw [hstep] at hts2 ⊢
        refine ⟨h1, h2, h3, ?_⟩
        intro th hth k2 hk2
        rcases hts2 th hth with hold | hnew
        · exact h4 th hold k2 hk2
        · subst hnew
          rcases hk2 with hk2 | hk2 <;> cases hk2
    | none =>
      have hstep : stepThread now id s t
          = (s, { t with pc := .write (randBytes 96 t.rnd) }) := by
        simp only [stepThread, hpc, hcache]
      rw [hstep] at hts2 ⊢
      refine ⟨h1, h2, h3, ?_⟩
      intro th hth k2 hk2
      rcases hts2 th hth with hold | hnew
      · exact h4 th hold k2 hk2
      · subst hnew
        rcases hk2 with hk2 | hk2 <;> cases hk2
  | write k =>
    cases hstore : mget s.store (storagePath id) with
    | none =>
      have hz := h2 hstore
      have hstep : stepThread now id s t
          = (⟨mput s.store (storagePath id) k, s.cache,
              s.trace ++ [.write (storagePath id) k true]⟩,
             { t with pc := .cacheStore k }) := by
        simp only [stepThread, hpc, hstore]
      rw [hstep] at hts2 ⊢
      have hone : countSuccWrites [StoreOp.write (storagePath id) k true] = 1 := rfl
      refine ⟨?_, ?_, ?_, ?_⟩
      · show countSuccWrites (s.trace ++ [StoreOp.write (storagePath id) k true]) ≤ 1
        rw [countSuccWrites_append, hone, hz]
      · intro hcontra
        rw [show mget (mput s.store (storagePath id) k) (storagePath id)
            = some k from by rw [mget_mput, if_pos rfl]] at hcontra
        cases hcontra
      · intro k2 hk2
        have := h3 k2 hk2
        rw [hstore] at this
        cases this
      · intro th hth k2 hk2
        rcases hts2 th hth with hold | hnew
        · have := h4 th hold k2 hk2
          rw [hstore] at this
          cases this
        · subst hnew
          rcases hk2 with hk2 | hk2
          · cases hk2
          · cases hk2
            show mget (mput s.store (storagePath id) k) (storagePath id) = some k
            rw [mget_mput, if_pos rfl]
    | some k0 =>
      have hstep : stepThread now id s t
          = (⟨s.store, s.cache, s.trace ++ [.write (storagePath id) k false]⟩,
             { t with pc := .readback }) := by
        simp only [stepThread, hpc, hstore]
      rw [hstep] at hts2 ⊢
      have hzero : countSuccWrites [StoreOp.write (storagePath id) k false] = 0 := rfl
      refine ⟨?_, ?_, h3, ?_⟩
      · show countSuccWrites (s.trace ++ [StoreOp.write (storagePath id) k false]) ≤ 1
        rw [countSuccWrites_append, hzero]
        omega
      · intro hcontra
        rw [hstore] at hcontra
        cases hcontra
      · intro th hth k2 hk2
        rcases hts2 th hth with hold | hnew
        · exact h4 th hold k2 hk2
        · subst hnew
          rcases hk2 with hk2 | hk2 <;> cases hk2
  | readback =>
    have hzero : countSuccWrites [StoreOp.read (storagePath id)] = 0 := rfl
    cases hstore : mget s.store (storagePath id) with
    | some k =>
      have hstep : stepThread now id s t
          = (⟨s.store, s.cache, s.trace ++ [.read (storagePath id)]⟩,
             { t with pc := .cacheStore k }) := by
        simp only [stepThread, hpc, hstore]
      rw [hstep] at hts2 ⊢
      refine ⟨?_, ?_, h3, ?_⟩
      · show countSuccWrites (s.trace ++ [StoreOp.read (storagePath id)]) ≤ 1
        rw [countSuccWrites_append, hzero]
        omega
      · intro hcontra
        rw [hstore] at hcontra
        cases hcontra
      · intro th hth k2 hk2
        rcases hts2 th hth with hold | hnew
        · exact h4 th hold k2 hk2
        · subst hnew
          rcases hk2 with hk2 | hk2
          · cases hk2
          · cases hk2
            exact hstore
    | none =>
      have hstep : stepThread now id s t
          = (⟨s.store, s.cache, s.trace ++ [.read (storagePath id)]⟩,
             { t with pc := .panicked }) := by
        simp only [stepThread, hpc, hstore]
      rw [hstep] at hts2 ⊢
      refine ⟨?_, ?_, h3, ?_⟩
      · show countSuccWrites (s.trace ++ [StoreOp.read (storagePath id)]) ≤ 1
        rw [countSuccWrites_append, hzero]
        omega
      · intro hcontra
        show countSuccWrites (s.trace ++ [StoreOp.read (storagePath id)]) = 0
        rw [countSuccWrites_append, hzero, h2 hcontra]
      · intro th hth k2 hk2
        rcases hts2 th hth with hold | hnew
        · exact h4 th hold k2 hk2
        · subst hnew
          rcases hk2 with hk2 | hk2 <;> cases hk2
  | cacheStore k =>
    have hk := h4 t ht k (by rw [hpc]; exact Or.inr rfl)
    have hstep : stepThread now id s t
        = (⟨s.store, mput s.cache id k, s.trace⟩, { t with pc := .done k }) := by
      simp only [stepThread, hpc]
    rw [hstep] at hts2 ⊢
    refine ⟨h1, h2, ?_, ?_⟩
    · intro k2 hk2
      show mget s.store (storagePath id) = some k2
      have : mget (mput s.cache id k) id = some k := by rw [mget_mput, if_pos rfl]
      rw [this] at hk2
      cases hk2
      exact hk
    · intro th hth k2 hk2
      rcases hts2 th hth with hold | hnew
      · exact h4 th hold k2 hk2
      · subst hnew
        rcases hk2 with hk2 | hk2
        · cases hk2
          exact hk
        · cases hk2
  | done k =>
    have hstep : stepThread now id s t = (s, t) := by
      simp only [stepThread, hpc]
    rw [hstep] at hts2 ⊢
    refine ⟨h1, h2, h3, ?_⟩
    intro th hth k2 hk2
    rcases hts2 th hth with hold | hnew
    · exact h4 th hold k2 hk2
    · subst hnew
      exact h4 _ ht k2 hk2
  | failed e =>
    have hstep : stepThread now id s t = (s, t) := by
      simp only [stepThread, hpc]
    rw [hstep] at hts2 ⊢
    refine ⟨h1, h2, h3, ?_⟩
    intro th hth k2 hk2
    rcases hts2 th hth with hold | hnew
    · exact h4 th hold k2 hk2
    · subst hnew
      exact h4 _ ht k2 hk2
  | panicked =>
    have hstep : stepThread now id s t = (s, t) := by
      simp only [stepThread, hpc]
    rw [hstep] at hts2 ⊢
    refine ⟨h1, h2, h3, ?_⟩
    intro th hth k2 hk2
    rcases hts2 th hth with hold | hnew
    · exact h4 th hold k2 hk2
    · subst hnew
      exact h4 _ ht k2 hk2

theorem runSched_inv (now : Nat) (id : List Nat) :
    ∀ (sched : List Nat) (s : PSt) (ts : List Thread), WInv id s ts →
      WInv id (runSched now id sched (s, ts)).1
        (runSched now id sched (s, ts)).2 := by
  intro sched
  induction sched with
  | nil => intro s ts h; exact h
  | cons i rest ih =>
    intro s ts h
    unfold runSched
    cases hti : ts[i]? with
    | none => exact ih s ts h
    | some t =>
      dsimp only
      apply ih
      apply stepThread_inv (List.getElem?_mem hti) h
      intro th hth
      exact List.mem_or_eq_of_mem_set hth

/-- C8 counterexample: two concurrent creating `key` calls for the same
id within one process can both miss the cache and then both issue a
create-only store write — the code takes no lock and does no
double-checked lookup between the `sync.Map` load and the write.  Under
the concrete schedule in which both threads perform their cache load
first, the trace holds two write attempts, refuting "at most one
create-only store write for that id in total". -/
theorem kms_concurrent_two_write_attempts_cex :
    countWrites (runSched 0 [97] [0, 1, 0, 1]
      (⟨[], [], []⟩, [⟨.start, fun _ => 1⟩, ⟨.start, fun _ => 2⟩])).1.trace
      = 2 := by decide

/-- C8 (amended): concurrent creating calls for the same id within one
process may each issue a create-only write attempt, but at most one of
those attempts succeeds (the store's create-only write is the arbiter),
and every call that completes returns material bit-identical to the bytes
then durably stored for the id — for every schedule, every number of
threads and every initial store. -/
theorem kms_concurrent_single_successful_write
    (now : Nat) (id : List Nat) (store0 : List (List Nat × Bytes))
    (rnds : List (Nat → Nat)) (sched : List Nat) :
    countSuccWrites (runSched now id sched
      (⟨store0, [], []⟩, rnds.map fun f => ⟨.start, f⟩)).1.trace ≤ 1 ∧
    (∀ th ∈ (runSched now id sched
        (⟨store0, [], []⟩, rnds.map fun f => ⟨.start, f⟩)).2,
      ∀ k, th.pc = .done k →
        mget (runSched now id sched
          (⟨store0, [], []⟩, rnds.map fun f => ⟨.start, f⟩)).1.store
          (storagePath id) = some k) := by
  have h0 : WInv id ⟨store0, [], []⟩ (rnds.map fun f => ⟨.start, f⟩) := by
    refine ⟨(by decide : countSuccWrites [] ≤ 1), fun _ => rfl, ?_, ?_⟩
    · intro k hk
      cases hk
    · intro th hth k hk
      rw [List.mem_map] at hth
      obtain ⟨f, hf, rfl⟩ := hth
      rcases hk with hk | hk <;> cases hk
  obtain ⟨h1, h2, h3, h4⟩ := runSched_inv now id sched ⟨store0, [], []⟩
    (rnds.map fun f => ⟨.start, f⟩) h0
  exact ⟨h1, fun th hth k hk => h4 th hth k (Or.inl hk)⟩

/-! ## Concrete witnesses -/

/-- The returned value of an outcome, with a default. -/
def Oc.getD {α : Type} : Oc α → α → α
  | .ok a, _ => a
  | _, d => d

set_option maxRecDepth 100000

theorem kms_encrypt_decrypt_roundtrip_witness :
    (Decrypt (Encrypt ⟨[], []⟩ 0 [104, 105] (some fun i => i + 3)
        (some fun i => i * 5 + 1)).st 0
      ((Encrypt ⟨[], []⟩ 0 [104, 105] (some fun i => i + 3)
        (some fun i => i * 5 + 1)).out.getD [])).out = .ok [104, 105] :=
  kms_encrypt_decrypt_roundtrip ⟨[], []⟩ 0 [104, 105] (some fun i => i + 3)
    (some fun i => i * 5 + 1)
    ((Encrypt ⟨[], []⟩ 0 [104, 105] (some fun i => i + 3)
      (some fun i => i * 5 + 1)).out.getD [])
    (by decide) (by decide)

theorem kms_hash_unhash_roundtrip_witness :
    (Unhash (Hash ⟨[], []⟩ 0 [104, 105] (some fun i => i + 3)).st 0
      ((Hash ⟨[], []⟩ 0 [104, 105] (some fun i => i + 3)).out.getD [])).out
      = .ok [104, 105] :=
  kms_hash_unhash_roundtrip ⟨[], []⟩ 0 [104, 105] (some fun i => i + 3)
    ((Hash ⟨[], []⟩ 0 [104, 105] (some fun i => i + 3)).out.getD [])
    (by decide) (by decide)

theorem kms_getOrCreateKey_adopts_durable_witness :
    ∃ k,
      (key ⟨[(storagePath [120], [9, 9])], []⟩ 0 [120] true
        (some fun i => i)).out = .ok k ∧
      (∃ b rest, (key ⟨[(storagePath [120], [9, 9])], []⟩ 0 [120] true
        (some fun i => i)).tr
        = .write (storagePath [120]) (randBytes 96 fun i => i) b :: rest) ∧
      mget (key ⟨[(storagePath [120], [9, 9])], []⟩ 0 [120] true
        (some fun i => i)).st.store (storagePath [120]) = some k ∧
      (∀ k0, mget (⟨[(storagePath [120], [9, 9])], []⟩ : St).store
        (storagePath [120]) = some k0 → k = k0) :=
  kms_getOrCreateKey_adopts_durable ⟨[(storagePath [120], [9, 9])], []⟩ 0 [120]
    (fun i => i) (by decide)

theorem kms_validateKeyId_semantics_witness :
    (validateKeyId (maxAge + 1) [120] = some (.malformedId [120]) ↔
      parseKeyTime [120] = none) ∧
    (validateKeyId (maxAge + 1) [120] = some (.futureId [120]) ↔
      ∃ u, parseKeyTime [120] = some u ∧ maxAge + 1 < u) ∧
    (validateKeyId (maxAge + 1) [120] = some (.expired [120]) ↔
      ∃ u, parseKeyTime [120] = some u ∧ u + maxAge < maxAge + 1) ∧
    (validateKeyId (maxAge + 1) [120] = none ↔
      ∃ u, parseKeyTime [120] = some u ∧ u ≤ maxAge + 1 ∧
        maxAge + 1 ≤ u + maxAge) ∧
    Decrypt ⟨[], []⟩ (maxAge + 1) (keyTimeBytes 0 ++ List.replicate 64 0)
      = ⟨.err (.expired ((keyTimeBytes 0 ++ List.replicate 64 0).take keyLength)),
         ⟨[], []⟩, []⟩ ∧
    Unhash ⟨[], []⟩ (maxAge + 1) (keyTimeBytes 0 ++ List.replicate 64 0)
      = ⟨.err (.expired ((keyTimeBytes 0 ++ List.replicate 64 0).take keyLength)),
         ⟨[], []⟩, []⟩ :=
  kms_validateKeyId_semantics (maxAge + 1) [120] ⟨[], []⟩ ⟨[], []⟩
    (keyTimeBytes 0 ++ List.replicate 64 0) (keyTimeBytes 0 ++ List.replicate 64 0)
    0 0 (by decide) (by decide) (by decide) (by decide) (by decide) (by decide)

theorem kms_randomness_failure_panics_witness :
    (Encrypt ⟨[], []⟩ 0 [5] (some fun i => i) none).out.isPanic = true ∧
    (Hash ⟨[], []⟩ 0 [5] none).out.isPanic = true :=
  kms_randomness_failure_panics ⟨[], []⟩ 0 [5] (some fun i => i) (by decide)

theorem kms_keyid_monotone_fixed_width_witness :
    lexLe (currentKeyId 0) (currentKeyId rotationFreq) = true ∧
    (currentKeyId 0).length = 13 :=
  kms_keyid_monotone_fixed_width 0 rotationFreq (by decide) (by decide)

theorem kms_concurrent_single_successful_write_witness :
    countSuccWrites (runSched 0 [97] [0, 1, 0, 1, 1, 0, 1]
      (⟨[], [], []⟩, [fun _ => 1, fun _ => 2].map fun f =>
        (⟨.start, f⟩ : Thread))).1.trace ≤ 1 ∧
    (∀ th ∈ (runSched 0 [97] [0, 1, 0, 1, 1, 0, 1]
        (⟨[], [], []⟩, [fun _ => 1, fun _ => 2].map fun f =>
          (⟨.start, f⟩ : Thread))).2,
      ∀ k, th.pc = .done k →
        mget (runSched 0 [97] [0, 1, 0, 1, 1, 0, 1]
          (⟨[], [], []⟩, [fun _ => 1, fun _ => 2].map fun f =>
            (⟨.start, f⟩ : Thread))).1.store
          (storagePath [97]) = some k) :=
  kms_concurrent_single_successful_write 0 [97] []
    [fun _ => 1, fun _ => 2] [0, 1, 0, 1, 1, 0, 1]

theorem kms_create_mode_skips_validation_on_miss_witness :
    ∃ k,
      (key ⟨[], []⟩ 0 [121] true (some fun i => i)).out = .ok k ∧
      mget (key ⟨[], []⟩ 0 [121] true (some fun i => i)).st.cache [121]
        = some k ∧
      mget (key ⟨[], []⟩ 0 [121] true (some fun i => i)).st.store
        (storagePath [121]) = some k :=
  kms_create_mode_skips_validation_on_miss ⟨[], []⟩ 0 [121] (fun i => i)
    (by decide)
